import Mathlib

/-!
Verification of `cmd/private-org-peribolos-sync/main.go`: a shallow embedding of the
peribolos-sync pipeline (Scanner → Fetcher → Merger) and proofs of its specified
properties.  Maps are embedded as association lists (mirroring Go map/set mutation
step by step); fallible calls are `Except`; the process's observable I/O is an
explicit effect trace.
-/

namespace PeribolosSync

/-- Repository settings record (prow `org.Repo`).  Modelled from the spec: the type
lives in `prow/config/org`, not under `src/`; its fields are exactly those assigned
in `generateRepositories` (main.go lines 141-153), each an optional (pointer) field. -/
structure Repo where
  description : Option String := none
  homePage : Option String := none
  priv : Option Bool := none
  hasIssues : Option Bool := none
  hasProjects : Option Bool := none
  hasWiki : Option Bool := none
  allowMergeCommit : Option Bool := none
  allowSquashMerge : Option Bool := none
  allowRebaseMerge : Option Bool := none
  archived : Option Bool := none
  defaultBranch : Option String := none
  deriving Repr, DecidableEq

/-- Remote repository metadata (`github.FullRepo`).  Modelled from the spec: the type
lives in `prow/github`, not under `src/`; restricted to the fields main.go reads
(lines 141-153: Name, Description, Homepage, Private, HasIssues, HasProjects,
HasWiki, AllowMergeCommit, AllowSquashMerge, AllowRebaseMerge, Archived,
DefaultBranch). -/
structure FullRepo where
  name : String := ""
  description : String := ""
  homepage : String := ""
  priv : Bool := false
  hasIssues : Bool := false
  hasProjects : Bool := false
  hasWiki : Bool := false
  allowMergeCommit : Bool := false
  allowSquashMerge : Bool := false
  allowRebaseMerge : Bool := false
  archived : Bool := false
  defaultBranch : String := ""
  deriving Repr, DecidableEq

/-- An optional string field is dropped when it equals the known default. -/
def pruneString (p : Option String) (d : String) : Option String :=
  match p with
  | some v => if v = d then none else some v
  | none => none

/-- An optional boolean field is dropped when it equals the known default. -/
def pruneBool (p : Option Bool) (d : Bool) : Option Bool :=
  match p with
  | some v => if v = d then none else some v
  | none => none

/-- Modelled from the spec: `org.PruneRepoDefaults` lives in `prow/config/org`, which
is not under `src/`.  Per spec §4.2 and the glossary, pruning omits "any field whose
value matches the platform's known default"; the defaults are the hosting platform's
(empty strings, `private=false`, feature and merge-strategy flags `true`,
`archived=false`, default branch `master`). -/
def PruneRepoDefaults (repo : Repo) : Repo :=
  { description := pruneString repo.description ""
    homePage := pruneString repo.homePage ""
    priv := pruneBool repo.priv false
    hasIssues := pruneBool repo.hasIssues true
    hasProjects := pruneBool repo.hasProjects true
    hasWiki := pruneBool repo.hasWiki true
    allowMergeCommit := pruneBool repo.allowMergeCommit true
    allowSquashMerge := pruneBool repo.allowSquashMerge true
    allowRebaseMerge := pruneBool repo.allowRebaseMerge true
    archived := pruneBool repo.archived false
    defaultBranch := pruneString repo.defaultBranch "master" }

/-- The `org.Repo` literal built from a fetched `FullRepo` (main.go lines 141-153):
every listed field of the metadata is copied into the corresponding optional field. -/
def toOrgRepo (fullRepo : FullRepo) : Repo :=
  { description := some fullRepo.description
    homePage := some fullRepo.homepage
    priv := some fullRepo.priv
    hasIssues := some fullRepo.hasIssues
    hasProjects := some fullRepo.hasProjects
    hasWiki := some fullRepo.hasWiki
    allowMergeCommit := some fullRepo.allowMergeCommit
    allowSquashMerge := some fullRepo.allowSquashMerge
    allowRebaseMerge := some fullRepo.allowRebaseMerge
    archived := some fullRepo.archived
    defaultBranch := some fullRepo.defaultBranch }

/-- The whitelist: organization name → list of repository names
(`config.WhitelistOptions.WhitelistConfig.Whitelist`, a Go `map[string][]string`). -/
abbrev Whitelist := List (String × List String)

/-- The Scanner's result: organization name → set of repository names
(Go `map[string]sets.String`).  The repository list of each entry plays the role of
`sets.String`; well-formedness (unique keys, duplicate-free lists) is the predicate
`wfOrgRepoSet` below. -/
abbrev OrgRepoSet := List (String × List String)

/-- Go `sets.String.Insert` on the entry for `o`, creating the entry when absent
(`ret[org] = sets.NewString(repo)` / `ret[org].Insert(repo)`, main.go lines 167-171
and 180-184). -/
def insertRepo : OrgRepoSet → String → String → OrgRepoSet
  | [], o, r => [(o, [r])]
  | (o', rs) :: t, o, r =>
    if o' = o then (o, if rs.contains r then rs else rs ++ [r]) :: t
    else (o', rs) :: insertRepo t o r

/-- Go map read: the repository set stored for organization `o`, if present. -/
def lookupOrg : OrgRepoSet → String → Option (List String)
  | [], _ => none
  | (o', rs) :: t, o => if o' = o then some rs else lookupOrg t o

/-- Whether the pair (`o`, `r`) is in the OrgRepoSet. -/
def containsPair (s : OrgRepoSet) (o r : String) : Bool :=
  match lookupOrg s o with
  | some rs => rs.contains r
  | none => false

/-- Insert a sequence of (org, repo) pairs in order. -/
def insertAll (s : OrgRepoSet) : List (String × String) → OrgRepoSet
  | [] => s
  | (o, r) :: t => insertAll (insertRepo s o r) t

/-- The (org, repo) pairs of a whitelist (or of an OrgRepoSet), enumerated in the
nested-loop order of main.go lines 165-166 and 132-133. -/
def orgRepoPairs (wl : List (String × List String)) : List (String × String) :=
  wl.flatMap (fun p => p.2.map (fun r => (p.1, r)))

/-- One observation made while walking the ci-operator configuration directory:
either a parsed build configuration — reduced to its location (`Info.Org`,
`Info.Repo`) and the value of the opaque predicate `promotion.BuildsOfficialImages`
— or a traversal/parse failure.  Modelled from the spec:
`config.OperateOnCIOperatorConfigDir`, `api.ReleaseBuildConfiguration` and the
predicate are externally supplied collaborators (spec §1, §4.1). -/
inductive ScanItem where
  | cfg (org repo : String) (buildsOfficialImages : Bool)
  | err (msg : String)
  deriving Repr, DecidableEq

/-- Whether a scan item is a traversal/parse failure. -/
def ScanItem.isErr : ScanItem → Bool
  | .err _ => true
  | .cfg _ _ _ => false

/-- Whether a scan contains no traversal/parse failure. -/
def noErrors : List ScanItem → Bool
  | [] => true
  | i :: t => !i.isErr && noErrors t

/-- Modelled from the spec: the walk (`config.OperateOnCIOperatorConfigDir`) visits
the configuration files in order and "fails immediately" at the first
traversal/parse failure (spec §4.1); for each parsed file it runs the callback of
main.go lines 175-187, which inserts (org, repo) exactly when the configuration
builds official images. -/
def processScan (s : OrgRepoSet) : List ScanItem → OrgRepoSet × Option String
  | [] => (s, none)
  | .err e :: _ => (s, some e)
  | .cfg o r b :: t => processScan (if b then insertRepo s o r else s) t

/-- `getReposForPrivateOrg` (main.go lines 162-194): seeds the result from the
whitelist, then folds the scan callback over the configuration directory; a walk
error is wrapped with a descriptive message and returned alongside the map built so
far (`return ret, fmt.Errorf(...)`, line 190). -/
def getReposForPrivateOrg (whitelist : Whitelist) (scan : List ScanItem) :
    OrgRepoSet × Option String :=
  let ret := insertAll [] (orgRepoPairs whitelist)
  match processScan ret scan with
  | (s, some e) =>
    (s, some ("error while operating in ci-operator configuration files: " ++ e))
  | (s, none) => (s, none)

/-- Well-formedness of an OrgRepoSet: organization keys are unique and each
repository set is duplicate-free ("every name appears at most once per
organization", spec §3). -/
def wfOrgRepoSet (s : OrgRepoSet) : Prop :=
  (s.map Prod.fst).Nodup ∧ ∀ p ∈ s, p.2.Nodup

/-- The Fetcher's output: repository name → `Repo` record
(Go `map[string]org.Repo`). -/
abbrev RepoMap := List (String × Repo)

/-- Go map write `m[k] = v`: replace the binding for `k` if present, otherwise
append a new one. -/
def mapInsert : RepoMap → String → Repo → RepoMap
  | [], k, v => [(k, v)]
  | (k', v') :: t, k, v =>
    if k' = k then (k, v) :: t else (k', v') :: mapInsert t k v

/-- Go map read on the Fetcher's output. -/
def lookupRepo : RepoMap → String → Option Repo
  | [], _ => none
  | (k', v) :: t, k => if k' = k then some v else lookupRepo t k

/-- One observable I/O action of the process: reading the peribolos configuration
file, walking the ci-operator configuration directory, one `GetRepo` remote call,
or writing the serialized output document. -/
inductive Effect where
  | readConfig
  | scanDir
  | fetchRepo (org repo : String)
  | writeConfig (out : String)
  deriving Repr, DecidableEq

/-- The loop body of `generateRepositories` (main.go lines 132-155) over an explicit
pair enumeration and accumulator: each pair issues one `GetRepo` call; a failure is
fatal on the spot (`logger.Fatal`, line 138); a success stores the pruned record
under the *returned* name `fullRepo.Name` (line 141).  Returns the `GetRepo` effect
trace together with the outcome. -/
def generateRepositoriesGo (gc : String → String → Except String FullRepo) :
    List (String × String) → RepoMap → List Effect × Except String RepoMap
  | [], acc => ([], .ok acc)
  | (o, r) :: rest, acc =>
    match gc o r with
    | .error e => ([.fetchRepo o r], .error e)
    | .ok fullRepo =>
      let next := generateRepositoriesGo gc rest
        (mapInsert acc fullRepo.name (PruneRepoDefaults (toOrgRepo fullRepo)))
      (.fetchRepo o r :: next.1, next.2)

/-- `generateRepositories` (main.go lines 129-158): iterate every (org, repo) pair
of the OrgRepoSet, starting from an empty map. -/
def generateRepositories (gc : String → String → Except String FullRepo)
    (orgRepos : OrgRepoSet) : List Effect × Except String RepoMap :=
  generateRepositoriesGo gc (orgRepoPairs orgRepos) []

/-- One organization's entry in the peribolos document (prow `org.Config`).
Modelled from the spec: the type lives in `prow/config/org`, not under `src/`; per
spec §3/§6 an entry holds the repository mapping plus further organization settings
(membership lists stand in for those), all zero-valued when absent. -/
structure Config where
  members : List String := []
  admins : List String := []
  repos : RepoMap := []
  deriving Repr, DecidableEq

/-- The whole peribolos document (prow `org.FullConfig`): organization name →
entry.  Modelled from the spec: the type lives in `prow/config/org`, not under
`src/`.  Embedded as a lookup function with Go map semantics. -/
structure FullConfig where
  orgs : String → Option Config

/-- The merge step of `main` (main.go lines 115-117): read the destination entry
(Go map read yields the zero value when absent), replace its `Repos` field
wholesale, and write the entry back under the destination key. -/
def mergeConfig (doc : FullConfig) (destOrg : String) (repos : RepoMap) :
    FullConfig :=
  let peribolosConfigByOrg := (doc.orgs destOrg).getD {}
  let updated := { peribolosConfigByOrg with repos := repos }
  { orgs := fun k => if k = destOrg then some updated else doc.orgs k }

/-- The command-line options (main.go lines 32-39): the three string flags, the
whitelist, and the outcomes of the two external validations
(`o.github.Validate(false)` and `o.WhitelistOptions.Validate()`, opaque
collaborators). -/
structure options where
  peribolosConfig : String := ""
  destOrg : String := ""
  releaseRepoPath : String := ""
  whitelist : Whitelist := []
  githubErr : Option String := none
  whitelistErr : Option String := none

/-- A concrete option set exercising the pipeline: all required flags present and a
single whitelisted repository. -/
def sampleOptions : options :=
  { peribolosConfig := "c"
    destOrg := "d"
    releaseRepoPath := "p"
    whitelist := [("org-a", ["repo-a"])] }

/-- `validateOptions` (main.go lines 56-75): collect one error per missing required
flag plus any external validation error; `kerrors.NewAggregate` reports the whole
list as a single aggregated error, which is nil exactly when the list is empty. -/
def validateOptions (o : options) : List String :=
  (if o.releaseRepoPath.length = 0 then ["--release-repo-path is not specified"] else [])
    ++ (if o.peribolosConfig.length = 0 then ["--peribolos-config is not specified"] else [])
    ++ (if o.destOrg.length = 0 then ["--destination-org is not specified"] else [])
    ++ (match o.githubErr with | some e => [e] | none => [])
    ++ (match o.whitelistErr with | some e => [e] | none => [])

/-- Why the process terminated with a fatal (non-zero) exit, one constructor per
`Fatal` call site of main.go. -/
inductive MainErr where
  | invalidOptions (errs : List String)
  | readFail (e : String)
  | unmarshalFail (e : String)
  | secretFail (e : String)
  | clientFail (e : String)
  | getReposFail (e : String)
  | getRepoFail (e : String)
  | marshalFail (e : String)
  | writeFail (e : String)
  deriving Repr, DecidableEq

/-- `main` (main.go lines 77-127) as a pure pipeline over its external inputs: the
option validation, the configuration file read, YAML unmarshal, secret agent and
GitHub client setup, the directory scan, the per-repository fetch, YAML marshal and
the final file write, in program order.  Returns the trace of observable I/O
effects together with either the fatal error (non-zero exit) or the merged document
that was written (zero exit). -/
def runMain (o : options) (readRes : Except String String)
    (unmarshal : String → Except String FullConfig)
    (secretRes : Except String Unit) (clientRes : Except String Unit)
    (scan : List ScanItem)
    (gc : String → String → Except String FullRepo)
    (marshal : FullConfig → Except String String)
    (writeRes : String → Except String Unit) :
    List Effect × Except MainErr FullConfig :=
  match validateOptions o with
  | e :: es => ([], .error (.invalidOptions (e :: es)))
  | [] =>
    match readRes with
    | .error e => ([.readConfig], .error (.readFail e))
    | .ok contents =>
      match unmarshal contents with
      | .error e => ([.readConfig], .error (.unmarshalFail e))
      | .ok peribolosConfig =>
        match secretRes with
        | .error e => ([.readConfig], .error (.secretFail e))
        | .ok _ =>
          match clientRes with
          | .error e => ([.readConfig], .error (.clientFail e))
          | .ok _ =>
            match getReposForPrivateOrg o.whitelist scan with
            | (_, some e) => ([.readConfig, .scanDir], .error (.getReposFail e))
            | (orgRepos, none) =>
              match (generateRepositories gc orgRepos).2 with
              | .error e =>
                (.readConfig :: .scanDir :: (generateRepositories gc orgRepos).1,
                  .error (.getRepoFail e))
              | .ok peribolosRepos =>
                match marshal (mergeConfig peribolosConfig o.destOrg
                    peribolosRepos) with
                | .error e =>
                  (.readConfig :: .scanDir :: (generateRepositories gc orgRepos).1,
                    .error (.marshalFail e))
                | .ok out =>
                  match writeRes out with
                  | .error e =>
                    (.readConfig :: .scanDir :: (generateRepositories gc orgRepos).1
                      ++ [.writeConfig out], .error (.writeFail e))
                  | .ok _ =>
                    (.readConfig :: .scanDir :: (generateRepositories gc orgRepos).1
                      ++ [.writeConfig out],
                      .ok (mergeConfig peribolosConfig o.destOrg peribolosRepos))

/-! ### Scanner lemmas -/

theorem mem_setInsertList (rs : List String) (r r' : String) :
    r' ∈ (if rs.contains r then rs else rs ++ [r]) ↔ r' ∈ rs ∨ r' = r := by
  by_cases hc : r ∈ rs
  · rw [if_pos (by simpa using hc)]
    constructor
    · exact Or.inl
    · rintro (h | rfl)
      · exact h
      · exact hc
  · rw [if_neg (by simpa using hc)]
    simp

theorem lookupOrg_insertRepo (s : OrgRepoSet) (o r o' : String) :
    lookupOrg (insertRepo s o r) o' =
      if o = o' then
        some (match lookupOrg s o with
          | some rs => if rs.contains r then rs else rs ++ [r]
          | none => [r])
      else lookupOrg s o' := by
  induction s with
  | nil => simp [insertRepo, lookupOrg]
  | cons p t ih =>
    obtain ⟨po, prs⟩ := p
    by_cases hpo : po = o
    · subst hpo
      simp only [insertRepo, if_pos rfl, lookupOrg]
      by_cases h : po = o' <;> simp [h]
    · simp only [insertRepo, if_neg hpo, lookupOrg, ih]
      by_cases h : po = o'
      · have : ¬o = o' := fun ho => hpo (h.trans ho.symm)
        simp [h, this, hpo]
      · simp [h, hpo]

theorem containsPair_insertRepo (s : OrgRepoSet) (o r o' r' : String) :
    containsPair (insertRepo s o r) o' r' = true ↔
      containsPair s o' r' = true ∨ (o = o' ∧ r = r') := by
  unfold containsPair
  rw [lookupOrg_insertRepo]
  by_cases h : o = o'
  · subst h
    rw [if_pos rfl]
    cases hl : lookupOrg s o with
    | none =>
      constructor
      · intro hmem
        have : r' ∈ [r] := by simpa using hmem
        exact .inr ⟨rfl, by simpa [eq_comm] using this⟩
      · rintro (hfalse | ⟨-, rfl⟩)
        · exact absurd hfalse (by simp)
        · simp
    | some rs =>
      constructor
      · intro hmem
        rcases (mem_setInsertList rs r r').mp (by simpa using hmem) with h1 | rfl
        · exact .inl (by simpa using h1)
        · exact .inr ⟨rfl, rfl⟩
      · rintro (h1 | ⟨-, hr⟩)
        · have : r' ∈ rs := by simpa using h1
          simpa using (mem_setInsertList rs r r').mpr (.inl this)
        · simpa using (mem_setInsertList rs r r').mpr (.inr hr.symm)
  · simp [h]

theorem containsPair_insertAll (l : List (String × String)) (s : OrgRepoSet)
    (o r : String) :
    containsPair (insertAll s l) o r = true ↔
      containsPair s o r = true ∨ (o, r) ∈ l := by
  induction l generalizing s with
  | nil => simp [insertAll]
  | cons p t ih =>
    obtain ⟨po, pr⟩ := p
    simp only [insertAll]
    rw [ih, containsPair_insertRepo]
    simp only [List.mem_cons]
    constructor
    · rintro ((hs | ⟨rfl, rfl⟩) | hmem)
      · exact .inl hs
      · exact .inr (.inl rfl)
      · exact .inr (.inr hmem)
    · rintro (hs | (heq | hmem))
      · exact .inl (.inl hs)
      · rw [Prod.ext_iff] at heq
        exact .inl (.inr ⟨heq.1.symm, heq.2.symm⟩)
      · exact .inr hmem

theorem mem_orgRepoPairs (wl : List (String × List String)) (o r : String) :
    (o, r) ∈ orgRepoPairs wl ↔ ∃ rs, (o, rs) ∈ wl ∧ r ∈ rs := by
  simp only [orgRepoPairs, List.mem_flatMap, List.mem_map, Prod.ext_iff]
  constructor
  · rintro ⟨⟨po, prs⟩, hmem, rr, hrr, ho, hr⟩
    exact ⟨prs, by simpa [← ho] using hmem, by simpa [← hr] using hrr⟩
  · rintro ⟨rs, hmem, hr⟩
    exact ⟨(o, rs), hmem, r, hr, rfl, rfl⟩

theorem processScan_noErrors (scan : List ScanItem) (s : OrgRepoSet)
    (h : noErrors scan = true) :
    (processScan s scan).2 = none ∧
      ∀ o r, containsPair (processScan s scan).1 o r = true ↔
        containsPair s o r = true ∨ ScanItem.cfg o r true ∈ scan := by
  induction scan generalizing s with
  | nil => simp [processScan]
  | cons i t ih =>
    cases i with
    | err e => simp [noErrors, ScanItem.isErr] at h
    | cfg io ir b =>
      have ht : noErrors t = true := by
        simpa [noErrors, ScanItem.isErr] using h
      obtain ⟨h1, h2⟩ := ih (if b then insertRepo s io ir else s) ht
      refine ⟨by simpa [processScan] using h1, fun o r => ?_⟩
      rw [show processScan s (ScanItem.cfg io ir b :: t) =
        processScan (if b then insertRepo s io ir else s) t from rfl, h2]
      cases b with
      | true =>
        rw [if_pos rfl, containsPair_insertRepo]
        constructor
        · rintro ((hs | ⟨rfl, rfl⟩) | hmem)
          · exact .inl hs
          · exact .inr (List.mem_cons_self _ _)
          · exact .inr (List.mem_cons_of_mem _ hmem)
        · rintro (hs | hmem)
          · exact .inl (.inl hs)
          · rcases List.mem_cons.mp hmem with heq | hmem'
            · injection heq with hx hy hz
              subst hx; subst hy
              exact .inl (.inr ⟨rfl, rfl⟩)
            · exact .inr hmem'
      | false =>
        rw [if_neg (by simp)]
        constructor
        · rintro (hs | hmem)
          · exact .inl hs
          · exact .inr (List.mem_cons_of_mem _ hmem)
        · rintro (hs | hmem)
          · exact .inl hs
          · rcases List.mem_cons.mp hmem with heq | hmem'
            · injection heq with h1 h2 h3
              exact absurd h3 (by simp)
            · exact .inr hmem'

theorem processScan_sound (scan : List ScanItem) (s : OrgRepoSet) (o r : String)
    (h : containsPair (processScan s scan).1 o r = true) :
    containsPair s o r = true ∨ ScanItem.cfg o r true ∈ scan := by
  induction scan generalizing s with
  | nil => exact .inl (by simpa [processScan] using h)
  | cons i t ih =>
    cases i with
    | err e => exact .inl (by simpa [processScan] using h)
    | cfg io ir b =>
      have h' : containsPair (processScan (if b then insertRepo s io ir else s) t).1 o r
          = true := by
        simpa [processScan] using h
      rcases ih _ h' with hs | hmem
      · cases b with
        | true =>
          rw [if_pos rfl, containsPair_insertRepo] at hs
          rcases hs with hs | ⟨ho, hr⟩
          · exact .inl hs
          · exact .inr (by simp [ho, hr])
        | false => exact .inl (by simpa using hs)
      · exact .inr (List.mem_cons_of_mem _ hmem)

theorem processScan_err (pre post : List ScanItem) (e : String) (s : OrgRepoSet)
    (h : noErrors pre = true) :
    processScan s (pre ++ ScanItem.err e :: post) = ((processScan s pre).1, some e) := by
  induction pre generalizing s with
  | nil => simp [processScan]
  | cons i t ih =>
    cases i with
    | err e' => simp [noErrors, ScanItem.isErr] at h
    | cfg io ir b =>
      have ht : noErrors t = true := by simpa [noErrors, ScanItem.isErr] using h
      simpa [processScan] using ih (if b then insertRepo s io ir else s) ht

theorem getRepos_eq (wl : Whitelist) (scan : List ScanItem) :
    getReposForPrivateOrg wl scan =
      ((processScan (insertAll [] (orgRepoPairs wl)) scan).1,
       Option.map
         (fun e => "error while operating in ci-operator configuration files: " ++ e)
         (processScan (insertAll [] (orgRepoPairs wl)) scan).2) := by
  unfold getReposForPrivateOrg
  rcases hps : processScan (insertAll [] (orgRepoPairs wl)) scan with ⟨s1, e1⟩
  cases e1 <;> simp [hps]

theorem mem_keys_insertRepo (s : OrgRepoSet) (o r x : String) :
    x ∈ (insertRepo s o r).map Prod.fst ↔ x = o ∨ x ∈ s.map Prod.fst := by
  induction s with
  | nil => simp [insertRepo]
  | cons p t ih =>
    obtain ⟨po, prs⟩ := p
    by_cases hpo : po = o
    · subst hpo
      simp [insertRepo]
    · simp only [insertRepo, if_neg hpo, List.map_cons, List.mem_cons, ih]
      tauto

theorem wf_insertRepo (s : OrgRepoSet) (o r : String) (h : wfOrgRepoSet s) :
    wfOrgRepoSet (insertRepo s o r) := by
  induction s with
  | nil =>
    refine ⟨by simp [insertRepo], ?_⟩
    intro p hp
    simp only [insertRepo, List.mem_singleton] at hp
    subst hp
    simp
  | cons q t ih =>
    obtain ⟨po, prs⟩ := q
    obtain ⟨hkeys, hvals⟩ := h
    simp only [List.map_cons, List.nodup_cons] at hkeys
    by_cases hpo : po = o
    · subst hpo
      simp only [insertRepo, if_pos rfl]
      refine ⟨by simpa using hkeys, ?_⟩
      intro p hp
      rcases List.mem_cons.mp hp with rfl | hpt
      · have hprs : prs.Nodup := hvals (po, prs) (List.mem_cons_self _ _)
        by_cases hc : prs.contains r
        · rw [if_pos hc]
          exact hprs
        · have hr : r ∉ prs := by simpa using hc
          rw [if_neg hc]
          simp [List.nodup_append, hprs, hr]
      · exact hvals p (List.mem_cons_of_mem _ hpt)
    · simp only [insertRepo, if_neg hpo]
      have hwt : wfOrgRepoSet t :=
        ⟨hkeys.2, fun p hp => hvals p (List.mem_cons_of_mem _ hp)⟩
      obtain ⟨ikeys, ivals⟩ := ih hwt
      refine ⟨?_, ?_⟩
      · simp only [List.map_cons, List.nodup_cons]
        refine ⟨?_, ikeys⟩
        intro hmem
        rcases (mem_keys_insertRepo t o r po).mp hmem with rfl | hpt
        · exact hpo rfl
        · exact hkeys.1 hpt
      · intro p hp
        rcases List.mem_cons.mp hp with rfl | hpt
        · exact hvals (po, prs) (List.mem_cons_self _ _)
        · exact ivals p hpt

theorem wf_insertAll (l : List (String × String)) (s : OrgRepoSet)
    (h : wfOrgRepoSet s) : wfOrgRepoSet (insertAll s l) := by
  induction l generalizing s with
  | nil => exact h
  | cons p t ih => exact ih _ (wf_insertRepo s p.1 p.2 h)

theorem wf_processScan (scan : List ScanItem) (s : OrgRepoSet)
    (h : wfOrgRepoSet s) : wfOrgRepoSet (processScan s scan).1 := by
  induction scan generalizing s with
  | nil => exact h
  | cons i t ih =>
    cases i with
    | err e => exact h
    | cfg io ir b =>
      show wfOrgRepoSet (processScan (if b then insertRepo s io ir else s) t).1
      cases b with
      | true => exact ih _ (wf_insertRepo s io ir h)
      | false => exact ih _ h

theorem wf_getRepos (wl : Whitelist) (scan : List ScanItem) :
    wfOrgRepoSet (getReposForPrivateOrg wl scan).1 := by
  rw [getRepos_eq]
  exact wf_processScan scan _ (wf_insertAll _ [] ⟨List.nodup_nil, by simp⟩)

/-! ### Claim C1 -/

/-- C1: for every whitelist and every scanned set of build configurations (a run in
which the directory walk succeeds), `getReposForPrivateOrg` succeeds and its
OrgRepoSet contains exactly the union of the whitelist's org/repo pairs and the
scanned pairs whose configuration builds official images, with each repository name
appearing at most once per organization (`wfOrgRepoSet`). -/
theorem getReposForPrivateOrg_union (whitelist : Whitelist) (scan : List ScanItem)
    (h : noErrors scan = true) :
    (getReposForPrivateOrg whitelist scan).2 = none
    ∧ (∀ o r, containsPair (getReposForPrivateOrg whitelist scan).1 o r = true ↔
        ((∃ rs, (o, rs) ∈ whitelist ∧ r ∈ rs) ∨ ScanItem.cfg o r true ∈ scan))
    ∧ wfOrgRepoSet (getReposForPrivateOrg whitelist scan).1 := by
  obtain ⟨h1, h2⟩ := processScan_noErrors scan (insertAll [] (orgRepoPairs whitelist)) h
  refine ⟨by rw [getRepos_eq]; simp [h1], ?_, wf_getRepos whitelist scan⟩
  intro o r
  rw [getRepos_eq]
  simp only []
  rw [h2 o r, containsPair_insertAll, mem_orgRepoPairs]
  constructor
  · rintro ((hfalse | hwl) | hscan)
    · exact absurd hfalse (by simp [containsPair, lookupOrg])
    · exact .inl hwl
    · exact .inr hscan
  · rintro (hwl | hscan)
    · exact .inl (.inr hwl)
    · exact .inr hscan

/-- C1 witness: a concrete whitelist and scan on which the characterization holds. -/
theorem getReposForPrivateOrg_union_witness :
    noErrors [ScanItem.cfg "openshift" "console" true] = true
    ∧ ((getReposForPrivateOrg [("openshift", ["installer"])]
          [ScanItem.cfg "openshift" "console" true]).2 = none
      ∧ (∀ o r, containsPair (getReposForPrivateOrg [("openshift", ["installer"])]
            [ScanItem.cfg "openshift" "console" true]).1 o r = true ↔
          ((∃ rs, (o, rs) ∈ [(("openshift" : String), ["installer"])] ∧ r ∈ rs)
            ∨ ScanItem.cfg o r true ∈ [ScanItem.cfg "openshift" "console" true]))
      ∧ wfOrgRepoSet (getReposForPrivateOrg [("openshift", ["installer"])]
          [ScanItem.cfg "openshift" "console" true]).1) :=
  ⟨by decide, getReposForPrivateOrg_union [("openshift", ["installer"])]
    [ScanItem.cfg "openshift" "console" true] (by decide)⟩

/-! ### Claim C4 -/

/-- C4 counterexample: when the directory walk fails, `getReposForPrivateOrg` does
not return an empty result: it returns the partially accumulated OrgRepoSet (here
the whitelist seed) alongside the descriptive error (main.go line 190 returns
`ret`, not nil, with the error). -/
theorem getRepos_partial_counterexample :
    (getReposForPrivateOrg [("openshift", ["installer"])] [ScanItem.err "unreadable"]).2
      = some "error while operating in ci-operator configuration files: unreadable"
    ∧ (getReposForPrivateOrg [("openshift", ["installer"])] [ScanItem.err "unreadable"]).1
      = [("openshift", ["installer"])] := by
  constructor <;> rfl

/-- C4 (amended): if walking or parsing any build-configuration file fails, the
whole operation fails immediately at the first failing file — files after it are
never processed — with a descriptive wrapped error; the OrgRepoSet accumulated up
to that point (whitelist seed plus earlier qualifying pairs) is returned alongside
the error rather than being dropped, and the caller treats the error as fatal. -/
theorem getRepos_failure (whitelist : Whitelist) (pre post : List ScanItem)
    (e : String) (h : noErrors pre = true) :
    getReposForPrivateOrg whitelist (pre ++ ScanItem.err e :: post)
      = ((getReposForPrivateOrg whitelist pre).1,
         some ("error while operating in ci-operator configuration files: " ++ e)) := by
  rw [getRepos_eq, getRepos_eq]
  rw [processScan_err pre post e _ h]
  simp

/-- C4 witness: a concrete failing walk, with one qualifying file before the
failure and one after it. -/
theorem getRepos_failure_witness :
    noErrors [ScanItem.cfg "org-a" "repo-a" true] = true
    ∧ getReposForPrivateOrg [("openshift", ["installer"])]
        ([ScanItem.cfg "org-a" "repo-a" true]
          ++ ScanItem.err "boom" :: [ScanItem.cfg "org-b" "repo-b" true])
      = ((getReposForPrivateOrg [("openshift", ["installer"])]
            [ScanItem.cfg "org-a" "repo-a" true]).1,
         some ("error while operating in ci-operator configuration files: " ++ "boom")) :=
  ⟨by decide, getRepos_failure [("openshift", ["installer"])]
    [ScanItem.cfg "org-a" "repo-a" true] [ScanItem.cfg "org-b" "repo-b" true]
    "boom" (by decide)⟩

/-! ### Claim C6 -/

/-- C6 counterexample: a configuration that does not build official images, whose
org/repo pair is not whitelisted, can nevertheless appear in the OrgRepoSet —
another scanned configuration for the same repository (e.g. a different branch's
file) qualifies. -/
theorem nonOfficial_present_counterexample :
    ScanItem.cfg "a" "r" false
        ∈ [ScanItem.cfg "a" "r" false, ScanItem.cfg "a" "r" true]
    ∧ (∀ rs, ¬ ((("a" : String), rs) ∈ ([] : Whitelist)))
    ∧ containsPair (getReposForPrivateOrg []
        [ScanItem.cfg "a" "r" false, ScanItem.cfg "a" "r" true]).1 "a" "r" = true := by
  refine ⟨by simp, by simp, ?_⟩
  rfl

/-- C6 (amended): a scanned configuration that does not build official images never
itself inserts its org/repo pair: the pair is absent from the OrgRepoSet unless it
is whitelisted or some scanned configuration for the same pair builds official
images. -/
theorem nonOfficial_absent (whitelist : Whitelist) (scan : List ScanItem)
    (o r : String)
    (hwl : ∀ rs, (o, rs) ∈ whitelist → r ∉ rs)
    (hscan : ScanItem.cfg o r true ∉ scan) :
    containsPair (getReposForPrivateOrg whitelist scan).1 o r = false := by
  rw [getRepos_eq]
  simp only []
  rcases hb : containsPair (processScan (insertAll [] (orgRepoPairs whitelist)) scan).1 o r
    with _ | _
  · rfl
  · exfalso
    rcases processScan_sound scan _ o r hb with hseed | hmem
    · rcases (containsPair_insertAll (orgRepoPairs whitelist) [] o r).mp hseed
        with hfalse | hpair
      · exact absurd hfalse (by simp [containsPair, lookupOrg])
      · obtain ⟨rs, hrs, hr⟩ := (mem_orgRepoPairs whitelist o r).mp hpair
        exact hwl rs hrs hr
    · exact hscan hmem

/-- C6 witness: a non-qualifying configuration for a non-whitelisted repository is
indeed absent. -/
theorem nonOfficial_absent_witness :
    (∀ rs, (("a" : String), rs) ∈ [(("b" : String), ["x"])] → "r" ∉ rs)
    ∧ ScanItem.cfg "a" "r" true ∉ [ScanItem.cfg "a" "r" false]
    ∧ containsPair (getReposForPrivateOrg [("b", ["x"])]
        [ScanItem.cfg "a" "r" false]).1 "a" "r" = false :=
  ⟨by intro rs hrs; simp at hrs, by decide,
    nonOfficial_absent [("b", ["x"])] [ScanItem.cfg "a" "r" false] "a" "r"
      (by intro rs hrs; simp at hrs) (by decide)⟩

/-! ### Claim C7 -/

theorem pruneString_idem (p : Option String) (d : String) :
    pruneString (pruneString p d) d = pruneString p d := by
  cases p with
  | none => rfl
  | some v => by_cases h : v = d <;> simp [pruneString, h]

theorem pruneBool_idem (p : Option Bool) (d : Bool) :
    pruneBool (pruneBool p d) d = pruneBool p d := by
  cases p with
  | none => rfl
  | some v => by_cases h : v = d <;> simp [pruneBool, h]

/-- C7: the prune-defaults transformation is idempotent — applying
`PruneRepoDefaults` to an already-pruned record yields the same record. -/
theorem PruneRepoDefaults_idem (repo : Repo) :
    PruneRepoDefaults (PruneRepoDefaults repo) = PruneRepoDefaults repo := by
  simp [PruneRepoDefaults, pruneString_idem, pruneBool_idem]

/-! ### Claim C3 -/

/-- C3: the merge step changes only the entry under the destination key — every
other organization entry of the document is identical before and after the merge. -/
theorem mergeConfig_frame (doc : FullConfig) (destOrg : String) (repos : RepoMap)
    (k : String) (h : k ≠ destOrg) :
    (mergeConfig doc destOrg repos).orgs k = doc.orgs k := by
  simp [mergeConfig, h]

/-- C3 witness: merging under `"dest"` leaves the `"existing"` entry unchanged. -/
theorem mergeConfig_frame_witness :
    ("existing" : String) ≠ "dest"
    ∧ (mergeConfig
        ⟨fun k => if k = "existing"
          then some { members := ["m"], admins := [], repos := [] } else none⟩
        "dest" [("repo1", {})]).orgs "existing"
      = (FullConfig.mk (fun k => if k = "existing"
          then some { members := ["m"], admins := [], repos := [] } else none)).orgs
          "existing" :=
  ⟨by decide, mergeConfig_frame
    ⟨fun k => if k = "existing"
      then some { members := ["m"], admins := [], repos := [] } else none⟩
    "dest" [("repo1", {})] "existing" (by decide)⟩

/-! ### Claim C5 -/

/-- C5: when the destination organization key is absent from the input document,
the merge creates it as a zero-valued entry whose repository mapping is exactly the
fetched mapping — no other field is set. -/
theorem mergeConfig_creates (doc : FullConfig) (destOrg : String) (repos : RepoMap)
    (h : doc.orgs destOrg = none) :
    (mergeConfig doc destOrg repos).orgs destOrg
      = some { members := [], admins := [], repos := repos } := by
  simp [mergeConfig, h]

/-- C5 witness: merging into an empty document creates exactly the zero-valued
entry holding the fetched mapping. -/
theorem mergeConfig_creates_witness :
    (FullConfig.mk (fun _ => none)).orgs "dest" = none
    ∧ (mergeConfig ⟨fun _ => none⟩ "dest" [("repo1", {})]).orgs "dest"
      = some { members := [], admins := [], repos := [("repo1", {})] } :=
  ⟨rfl, mergeConfig_creates ⟨fun _ => none⟩ "dest" [("repo1", {})] rfl⟩

/-! ### Fetcher lemmas -/

theorem mapInsert_sound (m : RepoMap) (k : String) (v : Repo) (k' : String)
    (v' : Repo) (h : (k', v') ∈ mapInsert m k v) :
    (k', v') ∈ m ∨ (k' = k ∧ v' = v) := by
  induction m with
  | nil =>
    right
    have : (k', v') = (k, v) := by simpa [mapInsert] using h
    rw [Prod.ext_iff] at this
    exact this
  | cons p t ih =>
    obtain ⟨pk, pv⟩ := p
    by_cases hk : pk = k
    · have h' : (k', v') ∈ (k, v) :: t := by simpa [mapInsert, hk] using h
      rcases List.mem_cons.mp h' with heq | hmem
      · rw [Prod.ext_iff] at heq
        exact .inr heq
      · exact .inl (List.mem_cons_of_mem _ hmem)
    · have h' : (k', v') ∈ (pk, pv) :: mapInsert t k v := by
        simpa [mapInsert, hk] using h
      rcases List.mem_cons.mp h' with heq | hmem
      · exact .inl (heq ▸ List.mem_cons_self _ _)
      · rcases ih hmem with hin | hnew
        · exact .inl (List.mem_cons_of_mem _ hin)
        · exact .inr hnew

theorem mapInsert_mem_self (m : RepoMap) (k : String) (v : Repo) :
    (k, v) ∈ mapInsert m k v := by
  induction m with
  | nil => simp [mapInsert]
  | cons p t ih =>
    obtain ⟨pk, pv⟩ := p
    by_cases hk : pk = k
    · simp [mapInsert, hk]
    · simp only [mapInsert, if_neg hk]
      exact List.mem_cons_of_mem _ ih

theorem mapInsert_preserves (m : RepoMap) (k : String) (v : Repo) (k' : String)
    (h : ∃ w, (k', w) ∈ m) : ∃ w, (k', w) ∈ mapInsert m k v := by
  by_cases hk : k' = k
  · exact ⟨v, hk ▸ mapInsert_mem_self m k v⟩
  · obtain ⟨w, hw⟩ := h
    refine ⟨w, ?_⟩
    induction m with
    | nil => cases hw
    | cons p t ih =>
      obtain ⟨pk, pv⟩ := p
      rcases List.mem_cons.mp hw with heq | hmem
      · have hpk : pk = k' := by
          rw [Prod.ext_iff] at heq
          exact heq.1.symm
        have hpkk : ¬pk = k := fun hc => hk (hpk ▸ hc)
        simp only [mapInsert, if_neg hpkk]
        exact heq ▸ List.mem_cons_self _ _
      · by_cases hpk : pk = k
        · simp only [mapInsert, if_pos hpk]
          exact List.mem_cons_of_mem _ hmem
        · simp only [mapInsert, if_neg hpk]
          exact List.mem_cons_of_mem _ (ih hmem)

theorem generateGo_sound (gc : String → String → Except String FullRepo)
    (pairs : List (String × String)) (acc m : RepoMap)
    (h : (generateRepositoriesGo gc pairs acc).2 = .ok m) :
    ∀ k v, (k, v) ∈ m → (k, v) ∈ acc ∨ ∃ o r fullRepo, (o, r) ∈ pairs ∧
      gc o r = .ok fullRepo ∧ k = fullRepo.name ∧
      v = PruneRepoDefaults (toOrgRepo fullRepo) := by
  induction pairs generalizing acc with
  | nil =>
    have : acc = m := by simpa [generateRepositoriesGo] using h
    subst this
    exact fun k v hkv => .inl hkv
  | cons p rest ih =>
    obtain ⟨o, r⟩ := p
    cases hgc : gc o r with
    | error e => simp [generateRepositoriesGo, hgc] at h
    | ok fullRepo =>
      have h' : (generateRepositoriesGo gc rest
          (mapInsert acc fullRepo.name (PruneRepoDefaults (toOrgRepo fullRepo)))).2
            = .ok m := by
        simpa [generateRepositoriesGo, hgc] using h
      intro k v hkv
      rcases ih _ h' k v hkv with hacc | hfrom
      · rcases mapInsert_sound _ _ _ _ _ hacc with hin | ⟨rfl, rfl⟩
        · exact .inl hin
        · exact .inr ⟨o, r, fullRepo, List.mem_cons_self _ _, hgc, rfl, rfl⟩
      · obtain ⟨o', r', f, hm, hg, hk, hv⟩ := hfrom
        exact .inr ⟨o', r', f, List.mem_cons_of_mem _ hm, hg, hk, hv⟩

theorem generateGo_complete (gc : String → String → Except String FullRepo)
    (pairs : List (String × String)) (acc m : RepoMap)
    (h : (generateRepositoriesGo gc pairs acc).2 = .ok m) :
    (∀ k, (∃ w, (k, w) ∈ acc) → ∃ w, (k, w) ∈ m)
    ∧ ∀ o r fullRepo, (o, r) ∈ pairs → gc o r = .ok fullRepo →
        ∃ w, (fullRepo.name, w) ∈ m := by
  induction pairs generalizing acc with
  | nil =>
    have : acc = m := by simpa [generateRepositoriesGo] using h
    subst this
    exact ⟨fun k hk => hk, fun o r f hm => absurd hm (List.not_mem_nil _)⟩
  | cons p rest ih =>
    obtain ⟨o, r⟩ := p
    cases hgc : gc o r with
    | error e => simp [generateRepositoriesGo, hgc] at h
    | ok fullRepo =>
      have h' : (generateRepositoriesGo gc rest
          (mapInsert acc fullRepo.name (PruneRepoDefaults (toOrgRepo fullRepo)))).2
            = .ok m := by
        simpa [generateRepositoriesGo, hgc] using h
      obtain ⟨ihpres, ihpairs⟩ := ih _ h'
      constructor
      · exact fun k hk => ihpres k (mapInsert_preserves acc _ _ k hk)
      · intro o' r' f hm hg
        rcases List.mem_cons.mp hm with heq | hmem
        · rw [Prod.ext_iff] at heq
          obtain ⟨rfl, rfl⟩ := heq
          have hf : fullRepo = f := by
            have := hgc ▸ hg
            simpa using this
          rw [← hf]
          exact ihpres fullRepo.name ⟨_, mapInsert_mem_self acc _ _⟩
        · exact ihpairs o' r' f hmem hg

theorem generateGo_error (gc : String → String → Except String FullRepo)
    (pairs : List (String × String)) (acc : RepoMap) (o r e : String)
    (hmem : (o, r) ∈ pairs) (hgc : gc o r = .error e) :
    ∃ e', (generateRepositoriesGo gc pairs acc).2 = .error e' := by
  induction pairs generalizing acc with
  | nil => cases hmem
  | cons p rest ih =>
    obtain ⟨po, pr⟩ := p
    cases hg : gc po pr with
    | error e'' => exact ⟨e'', by simp [generateRepositoriesGo, hg]⟩
    | ok f =>
      rcases List.mem_cons.mp hmem with heq | hmem'
      · rw [Prod.ext_iff] at heq
        obtain ⟨rfl, rfl⟩ := heq
        rw [hgc] at hg
        cases hg
      · obtain ⟨e', he'⟩ :=
          ih (mapInsert acc f.name (PruneRepoDefaults (toOrgRepo f))) hmem'
        exact ⟨e', by simpa [generateRepositoriesGo, hg] using he'⟩

theorem generateGo_trace_mem (gc : String → String → Except String FullRepo)
    (pairs : List (String × String)) (acc : RepoMap) (eff : Effect)
    (h : eff ∈ (generateRepositoriesGo gc pairs acc).1) :
    ∃ o r, eff = .fetchRepo o r ∧ (o, r) ∈ pairs := by
  induction pairs generalizing acc with
  | nil => simp [generateRepositoriesGo] at h
  | cons p rest ih =>
    obtain ⟨po, pr⟩ := p
    cases hg : gc po pr with
    | error e =>
      have : eff = .fetchRepo po pr := by
        simpa [generateRepositoriesGo, hg] using h
      exact ⟨po, pr, this, List.mem_cons_self _ _⟩
    | ok f =>
      have h' : eff = .fetchRepo po pr ∨
          eff ∈ (generateRepositoriesGo gc rest
            (mapInsert acc f.name (PruneRepoDefaults (toOrgRepo f)))).1 := by
        simpa [generateRepositoriesGo, hg] using h
      rcases h' with rfl | hmem
      · exact ⟨po, pr, rfl, List.mem_cons_self _ _⟩
      · obtain ⟨o, r, heff, hp⟩ := ih _ hmem
        exact ⟨o, r, heff, List.mem_cons_of_mem _ hp⟩

theorem generateGo_trace_count (gc : String → String → Except String FullRepo)
    (pairs : List (String × String)) (acc : RepoMap) (o r : String) :
    (generateRepositoriesGo gc pairs acc).1.count (Effect.fetchRepo o r)
      ≤ pairs.count (o, r) := by
  induction pairs generalizing acc with
  | nil => simp [generateRepositoriesGo]
  | cons p rest ih =>
    obtain ⟨po, pr⟩ := p
    by_cases hp : (o, r) = (po, pr)
    · rw [Prod.ext_iff] at hp
      obtain ⟨rfl, rfl⟩ := hp
      cases hg : gc o r with
      | error e =>
        simp [generateRepositoriesGo, hg, List.count_cons]
      | ok f =>
        simp only [generateRepositoriesGo, hg, List.count_cons]
        have := ih (mapInsert acc f.name (PruneRepoDefaults (toOrgRepo f)))
        simp only [List.count_cons] at this ⊢
        simp
        all_goals omega
    · have hpe : (Effect.fetchRepo po pr) ≠ (Effect.fetchRepo o r) := by
        intro hc
        injection hc with h1 h2
        exact hp (by rw [Prod.ext_iff]; exact ⟨h1.symm, h2.symm⟩)
      cases hg : gc po pr with
      | error e =>
        simp [generateRepositoriesGo, hg, List.count_cons, List.count_singleton,
          hpe, hp]
      | ok f =>
        have := ih (mapInsert acc f.name (PruneRepoDefaults (toOrgRepo f)))
        simp only [generateRepositoriesGo, hg, List.count_cons] at this ⊢
        simp [hpe, hp]
        omega

theorem containsPair_mem_pairs (s : OrgRepoSet) (o r : String)
    (h : containsPair s o r = true) : (o, r) ∈ orgRepoPairs s := by
  induction s with
  | nil => simp [containsPair, lookupOrg] at h
  | cons p t ih =>
    obtain ⟨po, prs⟩ := p
    by_cases hpo : po = o
    · subst hpo
      have hr : r ∈ prs := by
        simpa [containsPair, lookupOrg] using h
      simp only [orgRepoPairs, List.flatMap_cons, List.mem_append]
      exact .inl (List.mem_map.mpr ⟨r, hr, rfl⟩)
    · have h' : containsPair t o r = true := by
        simpa [containsPair, lookupOrg, hpo] using h
      simp only [orgRepoPairs, List.flatMap_cons, List.mem_append]
      exact .inr (ih h')

theorem orgRepoPairs_nodup (s : OrgRepoSet) (h : wfOrgRepoSet s) :
    (orgRepoPairs s).Nodup := by
  induction s with
  | nil => simp [orgRepoPairs]
  | cons p t ih =>
    obtain ⟨po, prs⟩ := p
    obtain ⟨hkeys, hvals⟩ := h
    simp only [List.map_cons, List.nodup_cons] at hkeys
    simp only [orgRepoPairs, List.flatMap_cons]
    rw [List.nodup_append]
    refine ⟨?_, ?_, ?_⟩
    · exact (hvals (po, prs) (List.mem_cons_self _ _)).map
        (fun a b hab => by simpa using hab)
    · exact ih ⟨hkeys.2, fun q hq => hvals q (List.mem_cons_of_mem _ hq)⟩
    · intro x hx hx'
      obtain ⟨rr, _, rfl⟩ := List.mem_map.mp hx
      have hex : ∃ rs, (po, rs) ∈ t ∧ rr ∈ rs := by
        obtain ⟨q, hq, hmem⟩ := List.mem_flatMap.mp hx'
        obtain ⟨rr', hrr', heq⟩ := List.mem_map.mp hmem
        have h1 : q.1 = po := congrArg Prod.fst heq
        have h2 : rr' = rr := congrArg Prod.snd heq
        refine ⟨q.2, ?_, h2 ▸ hrr'⟩
        rw [← h1]
        simpa using hq
      obtain ⟨rs, hrs, _⟩ := hex
      exact hkeys.1 (List.mem_map.mpr ⟨(po, rs), hrs, rfl⟩)

/-! ### Claim C8 -/

/-- C8: on a successful run the Fetcher keys its result by the repository name
returned by the lookup (`fullRepo.Name`), not by the queried name, and every stored
record is the pruned copy (`PruneRepoDefaults`) of the returned metadata's listed
fields (`toOrgRepo`): every binding of the output originates from some lookup this
way, and every successful lookup's returned name is a key of the output. -/
theorem generateRepositories_keyed_by_returned_name
    (gc : String → String → Except String FullRepo) (orgRepos : OrgRepoSet)
    (m : RepoMap) (h : (generateRepositories gc orgRepos).2 = .ok m) :
    (∀ k v, (k, v) ∈ m → ∃ o r fullRepo, (o, r) ∈ orgRepoPairs orgRepos ∧
        gc o r = .ok fullRepo ∧ k = fullRepo.name ∧
        v = PruneRepoDefaults (toOrgRepo fullRepo))
    ∧ (∀ o r fullRepo, (o, r) ∈ orgRepoPairs orgRepos → gc o r = .ok fullRepo →
        ∃ v, (fullRepo.name, v) ∈ m) := by
  constructor
  · intro k v hkv
    rcases generateGo_sound gc (orgRepoPairs orgRepos) [] m h k v hkv with hnil | hfrom
    · cases hnil
    · exact hfrom
  · exact (generateGo_complete gc (orgRepoPairs orgRepos) [] m h).2

/-- C8 witness: one pair queried as ("org-a", "queried-name") whose lookup returns
the canonical name "canonical" — the output is keyed by "canonical". -/
theorem generateRepositories_keyed_witness :
    (generateRepositories (fun _ _ => .ok { name := "canonical" })
        [("org-a", ["queried-name"])]).2
      = .ok [("canonical",
          PruneRepoDefaults (toOrgRepo ({ name := "canonical" } : FullRepo)))]
    ∧ ((∀ k v, (k, v) ∈ [("canonical",
          PruneRepoDefaults (toOrgRepo ({ name := "canonical" } : FullRepo)))] →
        ∃ o r fullRepo, (o, r) ∈ orgRepoPairs [("org-a", ["queried-name"])] ∧
          (fun (_ _ : String) =>
            (.ok { name := "canonical" } : Except String FullRepo)) o r
            = .ok fullRepo ∧
          k = fullRepo.name ∧ v = PruneRepoDefaults (toOrgRepo fullRepo))
      ∧ (∀ o r fullRepo, (o, r) ∈ orgRepoPairs [("org-a", ["queried-name"])] →
          (fun (_ _ : String) =>
            (.ok { name := "canonical" } : Except String FullRepo)) o r
            = .ok fullRepo →
          ∃ v, (fullRepo.name, v) ∈ [("canonical",
            PruneRepoDefaults (toOrgRepo ({ name := "canonical" } : FullRepo)))])) :=
  ⟨rfl, generateRepositories_keyed_by_returned_name
    (fun _ _ => .ok { name := "canonical" }) [("org-a", ["queried-name"])]
    [("canonical", PruneRepoDefaults (toOrgRepo ({ name := "canonical" } : FullRepo)))]
    rfl⟩

/-! ### Claim C10 -/

/-- C10: the Fetcher's output is keyed by the returned repository name alone,
ignoring the organization — when two distinct (org, repo) pairs of the OrgRepoSet
both succeed and return metadata with the same `Name`, the later record silently
overwrites the earlier one: two pairs are fetched (two `GetRepo` effects) but the
output mapping has a single entry, holding the second pair's pruned record. -/
theorem generateRepositories_overwrite
    (gc : String → String → Except String FullRepo) (orgRepos : OrgRepoSet)
    (o1 r1 o2 r2 : String) (f1 f2 : FullRepo)
    (hpairs : orgRepoPairs orgRepos = [(o1, r1), (o2, r2)])
    (_hne : (o1, r1) ≠ (o2, r2))
    (h1 : gc o1 r1 = .ok f1) (h2 : gc o2 r2 = .ok f2)
    (hname : f1.name = f2.name) :
    (generateRepositories gc orgRepos).2
      = .ok [(f2.name, PruneRepoDefaults (toOrgRepo f2))]
    ∧ (generateRepositories gc orgRepos).1
      = [Effect.fetchRepo o1 r1, Effect.fetchRepo o2 r2] := by
  unfold generateRepositories
  rw [hpairs]
  simp [generateRepositoriesGo, h1, h2, mapInsert, hname]

/-- C10 witness: "org-a/x" and "org-b/y" both return metadata named "shared"; the
output has one entry although two repositories were fetched. -/
theorem generateRepositories_overwrite_witness :
    orgRepoPairs [("org-a", ["x"]), ("org-b", ["y"])]
      = [("org-a", "x"), ("org-b", "y")]
    ∧ ((("org-a" : String), ("x" : String)) ≠ ("org-b", "y"))
    ∧ ((generateRepositories (fun _ _ => .ok { name := "shared" })
          [("org-a", ["x"]), ("org-b", ["y"])]).2
        = .ok [("shared",
            PruneRepoDefaults (toOrgRepo ({ name := "shared" } : FullRepo)))]
      ∧ (generateRepositories (fun _ _ => .ok { name := "shared" })
          [("org-a", ["x"]), ("org-b", ["y"])]).1
        = [Effect.fetchRepo "org-a" "x", Effect.fetchRepo "org-b" "y"]) :=
  ⟨rfl, by decide,
    generateRepositories_overwrite (fun _ _ => .ok { name := "shared" })
      [("org-a", ["x"]), ("org-b", ["y"])] "org-a" "x" "org-b" "y"
      { name := "shared" } { name := "shared" } rfl (by decide) rfl rfl rfl⟩

/-! ### Claim C9 -/

/-- C9: when any required command-line input is missing, validation fails before
any file or network I/O — the effect trace is empty — with one aggregated error; in
particular the aggregate simultaneously contains one entry per missing required
flag, so the caller sees them all at once. -/
theorem validateOptions_aggregate (o : options) (readRes : Except String String)
    (unmarshal : String → Except String FullConfig)
    (secretRes clientRes : Except String Unit) (scan : List ScanItem)
    (gc : String → String → Except String FullRepo)
    (marshal : FullConfig → Except String String)
    (writeRes : String → Except String Unit)
    (h : validateOptions o ≠ []) :
    runMain o readRes unmarshal secretRes clientRes scan gc marshal writeRes
      = ([], .error (.invalidOptions (validateOptions o)))
    ∧ (o.releaseRepoPath.length = 0 →
        "--release-repo-path is not specified" ∈ validateOptions o)
    ∧ (o.peribolosConfig.length = 0 →
        "--peribolos-config is not specified" ∈ validateOptions o)
    ∧ (o.destOrg.length = 0 →
        "--destination-org is not specified" ∈ validateOptions o) := by
  refine ⟨?_, ?_, ?_, ?_⟩
  · cases hv : validateOptions o with
    | nil => exact absurd hv h
    | cons e1 es =>
      unfold runMain
      rw [hv]
  · intro hr
    simp [validateOptions, hr]
  · intro hr
    simp [validateOptions, hr]
  · intro hr
    simp [validateOptions, hr]

/-- C9 witness: all three required flags missing at once — the run performs no
effect and the aggregate lists all three messages. -/
theorem validateOptions_aggregate_witness :
    validateOptions {} ≠ []
    ∧ (runMain {} (.ok "") (fun _ => .error "") (.ok ()) (.ok ()) []
          (fun _ _ => .error "") (fun _ => .error "") (fun _ => .ok ())
        = ([], .error (.invalidOptions (validateOptions {})))
      ∧ ((options.releaseRepoPath {}).length = 0 →
          "--release-repo-path is not specified" ∈ validateOptions {})
      ∧ ((options.peribolosConfig {}).length = 0 →
          "--peribolos-config is not specified" ∈ validateOptions {})
      ∧ ((options.destOrg {}).length = 0 →
          "--destination-org is not specified" ∈ validateOptions {})) :=
  ⟨by decide, validateOptions_aggregate {} (.ok "") (fun _ => .error "") (.ok ())
    (.ok ()) [] (fun _ _ => .error "") (fun _ => .error "") (fun _ => .ok ())
    (by decide)⟩

theorem count_le_one_of_nodup {α : Type} [BEq α] [LawfulBEq α] (l : List α)
    (h : l.Nodup) (a : α) : l.count a ≤ 1 := by
  induction l with
  | nil => simp
  | cons b t ih =>
    simp only [List.nodup_cons] at h
    rw [List.count_cons]
    by_cases hab : b = a
    · subst hab
      have hz : t.count b = 0 := by
        rw [List.count_eq_zero]
        exact h.1
      simp [hz]
    · have hf : (b == a) = false := by simpa using hab
      rw [hf]
      simpa using ih h.2

/-! ### Claim C2 -/

/-- C2: in every run in which the metadata lookup fails for some org/repo pair of
the OrgRepoSet, the process exits with non-zero status (the outcome is never
success), no write to the output configuration file ever occurs (no `writeConfig`
effect is in the trace), and no lookup is retried (each `GetRepo` effect occurs at
most once in the trace). -/
theorem runMain_fatal_on_lookup_failure (o : options)
    (readRes : Except String String)
    (unmarshal : String → Except String FullConfig)
    (secretRes clientRes : Except String Unit) (scan : List ScanItem)
    (gc : String → String → Except String FullRepo)
    (marshal : FullConfig → Except String String)
    (writeRes : String → Except String Unit) (orgName repoName e : String)
    (hmem : containsPair (getReposForPrivateOrg o.whitelist scan).1
      orgName repoName = true)
    (hgc : gc orgName repoName = .error e) :
    (∀ doc, (runMain o readRes unmarshal secretRes clientRes scan gc marshal
        writeRes).2 ≠ .ok doc)
    ∧ (∀ out, Effect.writeConfig out
        ∉ (runMain o readRes unmarshal secretRes clientRes scan gc marshal
            writeRes).1)
    ∧ (∀ o' r', ((runMain o readRes unmarshal secretRes clientRes scan gc marshal
        writeRes).1.count (Effect.fetchRepo o' r')) ≤ 1) := by
  cases hv : validateOptions o with
  | cons e1 es =>
    unfold runMain
    simp [hv]
  | nil =>
    cases hr : readRes with
    | error er =>
      unfold runMain
      simp [hv, hr, List.count_cons]
    | ok contents =>
      cases hu : unmarshal contents with
      | error eu =>
        unfold runMain
        simp [hv, hr, hu, List.count_cons]
      | ok doc =>
        cases hs : secretRes with
        | error esec =>
          unfold runMain
          simp [hv, hr, hu, hs, List.count_cons]
        | ok u1 =>
          cases hc : clientRes with
          | error ec =>
            unfold runMain
            simp [hv, hr, hu, hs, hc, List.count_cons]
          | ok u2 =>
            rcases hget : getReposForPrivateOrg o.whitelist scan with
              ⟨orgRepos, oerr⟩
            cases oerr with
            | some eg =>
              unfold runMain
              simp [hv, hr, hu, hs, hc, hget, List.count_cons]
            | none =>
              have hmem' : containsPair orgRepos orgName repoName = true := by
                rw [hget] at hmem
                exact hmem
              have hwf : wfOrgRepoSet orgRepos := by
                have := wf_getRepos o.whitelist scan
                rw [hget] at this
                exact this
              have hpair : (orgName, repoName) ∈ orgRepoPairs orgRepos :=
                containsPair_mem_pairs orgRepos orgName repoName hmem'
              obtain ⟨e', hgen⟩ := generateGo_error gc (orgRepoPairs orgRepos) []
                orgName repoName e hpair hgc
              have hgen' : (generateRepositories gc orgRepos).2 = .error e' := hgen
              unfold runMain
              simp only [hv, hr, hu, hs, hc, hget, hgen']
              refine ⟨by simp, ?_, ?_⟩
              · intro out hout
                rcases List.mem_cons.mp hout with heq | hout'
                · cases heq
                rcases List.mem_cons.mp hout' with heq | hout''
                · cases heq
                obtain ⟨o'', r'', heff, _⟩ :=
                  generateGo_trace_mem gc (orgRepoPairs orgRepos) [] _ hout''
                cases heff
              · intro o' r'
                have hcount := generateGo_trace_count gc (orgRepoPairs orgRepos) []
                  o' r'
                have hnodup : (orgRepoPairs orgRepos).Nodup :=
                  orgRepoPairs_nodup orgRepos hwf
                have hone : (orgRepoPairs orgRepos).count (o', r') ≤ 1 :=
                  count_le_one_of_nodup _ hnodup (o', r')
                have hcount2 : ((generateRepositories gc orgRepos).1.count
                    (Effect.fetchRepo o' r'))
                    ≤ (orgRepoPairs orgRepos).count (o', r') := hcount
                simp only [List.count_cons]
                simp
                all_goals omega

/-- C2 witness: a whitelisted repository whose lookup fails — the run is fatal,
writes nothing, and queries each repository at most once. -/
theorem runMain_fatal_on_lookup_failure_witness :
    containsPair (getReposForPrivateOrg sampleOptions.whitelist []).1
        "org-a" "repo-a" = true
    ∧ (fun (_ _ : String) => (.error "boom" : Except String FullRepo)) "org-a"
        "repo-a" = .error "boom"
    ∧ ((∀ doc, (runMain sampleOptions
          (.ok "") (fun _ => .ok ⟨fun _ => none⟩) (.ok ()) (.ok ()) []
          (fun _ _ => .error "boom") (fun _ => .ok "") (fun _ => .ok ())).2
            ≠ .ok doc)
      ∧ (∀ out, Effect.writeConfig out ∉ (runMain sampleOptions
          (.ok "") (fun _ => .ok ⟨fun _ => none⟩) (.ok ()) (.ok ()) []
          (fun _ _ => .error "boom") (fun _ => .ok "") (fun _ => .ok ())).1)
      ∧ (∀ o' r', ((runMain sampleOptions
          (.ok "") (fun _ => .ok ⟨fun _ => none⟩) (.ok ()) (.ok ()) []
          (fun _ _ => .error "boom") (fun _ => .ok "") (fun _ => .ok ())).1.count
            (Effect.fetchRepo o' r')) ≤ 1)) :=
  ⟨by decide, rfl, runMain_fatal_on_lookup_failure sampleOptions
    (.ok "") (fun _ => .ok ⟨fun _ => none⟩) (.ok ()) (.ok ()) []
    (fun _ _ => .error "boom") (fun _ => .ok "") (fun _ => .ok ())
    "org-a" "repo-a" "boom" (by decide) rfl⟩

end PeribolosSync
